import Mathlib

/-!
Verification of the stack-pattern matcher and aggregation engine of the
`perf-focus` repository, shallowly embedded from the Rust sources.

Conventions of the embedding:
* stack traces are `List String`, bottom-of-stack first, as in the sources;
* the `regex` crate is external to the specified core, so a compiled frame
  regex is embedded as its matching predicate `String → Bool`
  (`RegexMatcher::match_trace` only ever calls `Regex::is_match`);
* Rust `Result<StackTrace, MatchError>` becomes the inductive `MatchResult`;
* machine integers (`usize`, `u32`) are modelled as `ℕ`; the counts that
  occur are list lengths and hit counters, far below any overflow;
* `f64` arithmetic (in `util::percent`) is modelled exactly, representing
  every intermediate IEEE-754 double as a dyadic pair mantissa·2^exponent
  with round-to-nearest-even, see the `percent` section.
-/

namespace PerfFocus

/-! ## Matcher core (src/matcher/mod.rs) -/

abbrev StackFrame := String
abbrev StackTrace := List StackFrame

/-- The two-mode failure taxonomy of `enum MatchError` (src/matcher/mod.rs 16-50). -/
inductive MatchError where
  | recoverable
  | irrecoverable
deriving DecidableEq, Repr

/-- The Rust `MatchResult<'stack> = Result<StackTrace<'stack>, MatchError>` (src/matcher/mod.rs 14). -/
inductive MatchResult where
  | ok (suffix : StackTrace)
  | err (e : MatchError)
deriving DecidableEq, Repr

/-- The matcher combinator tree.  Each constructor corresponds to one
`*Matcher` struct of src/matcher/mod.rs; `regex` carries the predicate of the
compiled frame regex. -/
inductive Matcher where
  | regex (p : StackFrame → Bool)
  | wildcard
  | empty
  | paren (m : Matcher)
  | not (m : Matcher)
  | thenM (l r : Matcher)
  | skip (needle condition : Matcher)
  | or (l r : Matcher)

/-- The sliding loop of `Matcher::search_trace_while` (src/matcher/mod.rs
107-137), parameterized by the `match_trace` functions of the searched
matcher (`f`) and of the condition (`g`).  It returns the number of dropped
frames together with the suffix returned by the successful match. -/
def searchWhile (f g : StackTrace → MatchResult) : StackTrace → Option (ℕ × StackTrace)
  | [] => none
  | x :: rest =>
    match f (x :: rest) with
    | .ok suffix => some (0, suffix)
    | .err .recoverable =>
      match g (x :: rest) with
      | .ok _ => (searchWhile f g rest).map (fun d => (d.1 + 1, d.2))
      | .err _ => none
    | .err .irrecoverable => none

/-- The Rust `match_trace` of every combinator (src/matcher/mod.rs):
`RegexMatcher` 188-194, `WildcardMatcher` 225-231, `EmptyMatcher` 259-261,
`ParenMatcher` 292-294, `NotMatcher` 323-330, `ThenMatcher` 363-367,
`SkipMatcher` 403-410, `OrMatcher` 448-450.
`OrMatcher` uses `Result::or_else(|_| ...)`, which runs the right matcher on
either kind of failure. -/
def matchTrace : Matcher → StackTrace → MatchResult
  | .regex p, s =>
    match s with
    | [] => .err .recoverable
    | x :: rest => if p x then .ok rest else .err .recoverable
  | .wildcard, s =>
    match s with
    | [] => .err .recoverable
    | _ :: rest => .ok rest
  | .empty, s => .ok s
  | .paren m, s => matchTrace m s
  | .not m, s =>
    match matchTrace m s with
    | .ok _ => .err .recoverable
    | .err _ => .ok s
  | .thenM l r, s =>
    match matchTrace l s with
    | .ok t => matchTrace r t
    | .err e => .err e
  | .skip needle condition, s =>
    match searchWhile (fun t => matchTrace needle t) (fun t => matchTrace condition t) s with
    | some d => .ok (s.drop (s.length - d.2.length))
    | none => .err .irrecoverable
  | .or l r, s =>
    match matchTrace l s with
    | .ok t => .ok t
    | .err _ => matchTrace r s

/-- The Rust `struct SearchResult` (src/matcher/mod.rs 163-167). -/
structure SearchResult where
  first_matching_frame : ℕ
  first_callee_frame : ℕ
deriving DecidableEq, Repr

/-- The Rust `Matcher::search_trace_while` (src/matcher/mod.rs 107-137): the result
offsets are the accumulated drop count and `input.len() - suffix.len()`. -/
def searchTraceWhile (m condition : Matcher) (input : StackTrace) : Option SearchResult :=
  (searchWhile (matchTrace m) (matchTrace condition) input).map
    (fun d => ⟨d.1, input.length - d.2.length⟩)

/-- The Rust `Matcher::search_trace` (src/matcher/mod.rs 100-102). -/
def searchTrace (m : Matcher) (input : StackTrace) : Option SearchResult :=
  searchTraceWhile m .empty input

/-! ### Lemmas about the matcher -/

theorem matchTrace_ok_length :
    ∀ (m : Matcher) (s t : StackTrace), matchTrace m s = .ok t → t.length ≤ s.length := by
  intro m
  induction m with
  | regex p =>
    intro s t h
    cases s with
    | nil => simp [matchTrace] at h
    | cons x rest =>
      by_cases hp : p x <;> simp [matchTrace, hp] at h
      simp [← h]
  | wildcard =>
    intro s t h
    cases s with
    | nil => simp [matchTrace] at h
    | cons x rest =>
      simp [matchTrace] at h
      simp [← h]
  | empty =>
    intro s t h
    simp [matchTrace] at h
    simp [← h]
  | paren m ih =>
    intro s t h
    exact ih s t h
  | not m ih =>
    intro s t h
    rcases hm : matchTrace m s with u | e <;> simp [matchTrace, hm] at h
    simp [← h]
  | thenM l r ihl ihr =>
    intro s t h
    rcases hl : matchTrace l s with u | e <;> simp [matchTrace, hl] at h
    · exact le_trans (ihr u t h) (ihl s u hl)
  | skip needle condition ihn ihc =>
    intro s t h
    rcases hs : searchWhile (fun u => matchTrace needle u) (fun u => matchTrace condition u) s
      with _ | d <;> simp [matchTrace, hs] at h
    rw [← h, List.length_drop]
    omega
  | or l r ihl ihr =>
    intro s t h
    rcases hl : matchTrace l s with u | e <;> simp [matchTrace, hl] at h
    · rw [← h]; exact ihl s u hl
    · exact ihr s t h

theorem searchWhile_length (f g : StackTrace → MatchResult)
    (hf : ∀ u v, f u = .ok v → v.length ≤ u.length) :
    ∀ (s : StackTrace) (d : ℕ) (t : StackTrace),
      searchWhile f g s = some (d, t) → d + t.length ≤ s.length := by
  intro s
  induction s with
  | nil => intro d t h; simp [searchWhile] at h
  | cons x rest ih =>
    intro d t h
    rcases hfx : f (x :: rest) with suffix | e
    · simp [searchWhile, hfx] at h
      have := hf _ _ hfx
      simp [← h.1, ← h.2] at *
      omega
    · cases e with
      | recoverable =>
        rcases hg : g (x :: rest) with u | e2
        · rcases hsw : searchWhile f g rest with _ | ⟨d0, t0⟩ <;>
            simp [searchWhile, hfx, hg, hsw] at h
          obtain ⟨hd, ht⟩ := h
          subst hd ht
          have := ih d0 t0 hsw
          simp
          omega
        · simp [searchWhile, hfx, hg] at h
      | irrecoverable => simp [searchWhile, hfx] at h

/-- Claim C7: for every matcher and every sample, `search_trace` either
returns `None` or a `SearchResult` with
`0 ≤ first_matching_frame ≤ first_callee_frame ≤ |sample|`. -/
theorem search_trace_offsets (m : Matcher) (s : StackTrace) (r : SearchResult)
    (h : searchTrace m s = some r) :
    0 ≤ r.first_matching_frame ∧
      r.first_matching_frame ≤ r.first_callee_frame ∧
      r.first_callee_frame ≤ s.length := by
  unfold searchTrace searchTraceWhile at h
  rcases hsw : searchWhile (matchTrace m) (matchTrace .empty) s with _ | ⟨d, t⟩ <;>
    rw [hsw] at h <;> simp at h
  have hb := searchWhile_length (matchTrace m) (matchTrace .empty)
    (fun u v => matchTrace_ok_length m u v) s d t hsw
  rw [← h]
  refine ⟨Nat.zero_le _, ?_, ?_⟩ <;> (simp; try omega)

/-- Witness for C7 at the empty matcher on a one-frame sample. -/
theorem search_trace_offsets_witness :
    (0 : ℕ) ≤ 0 ∧ (0 : ℕ) ≤ 0 ∧ (0 : ℕ) ≤ 1 := by
  have := search_trace_offsets .empty ["main"] ⟨0, 0⟩ (by decide)
  exact this

/-- Claim C1 (amended): `Or(l, r).match_trace(s)` returns `l`'s suffix when
`l` succeeds, and otherwise — on either `RecoverableError` or
`IrrecoverableError` from `l` — returns the result of `r(s)`; the
irrecoverable failure is not propagated past `r`. -/
theorem or_match_trace (l r : Matcher) (s : StackTrace) :
    (∀ t, matchTrace l s = .ok t → matchTrace (.or l r) s = .ok t) ∧
    (∀ e, matchTrace l s = .err e → matchTrace (.or l r) s = matchTrace r s) := by
  constructor <;> intro a h <;> simp [matchTrace, h]

/-- Counterexample to claim C1 as stated: the left matcher
`Skip(Regex "a")` fails irrecoverably on `["b"]`, yet
`Or(Skip(Regex "a"), Empty)` succeeds — the failure was not propagated;
the right arm was tried. -/
theorem or_match_trace_cut_cex :
    matchTrace (.skip (.regex (· == "a")) .empty) ["b"] = .err .irrecoverable ∧
    matchTrace (.or (.skip (.regex (· == "a")) .empty) .empty) ["b"] = .ok ["b"] := by decide

/-- Witness for the amended C1: an irrecoverable left failure makes `Or`
behave exactly like its right arm. -/
theorem or_match_trace_witness :
    matchTrace (.or (.skip (.regex (· == "b")) .empty) .wildcard) ["c"] =
      matchTrace .wildcard ["c"] :=
  (or_match_trace _ _ _).2 .irrecoverable (by decide)

/-- Claim C2 (amended): for a non-empty sample `s`, if `m'.search_trace(s)`
returns `None` then `search_trace` with `Not(m')` returns `Some`.  (The
converse direction of the claimed equivalence is false, see the
counterexample.) -/
theorem not_search_some_of_none (m : Matcher) (s : StackTrace) (hne : s ≠ [])
    (h : searchTrace m s = none) : (searchTrace (.not m) s).isSome = true := by
  cases s with
  | nil => exact absurd rfl hne
  | cons x rest =>
    rcases hm : matchTrace m (x :: rest) with t | e
    · simp [searchTrace, searchTraceWhile, searchWhile, hm] at h
    · simp [searchTrace, searchTraceWhile, searchWhile, matchTrace, hm]

/-- Counterexample to claim C2 as stated: with `m' = Regex "a"` and
`s = ["a", "b"]`, both `Not(m').search_trace(s)` and `m'.search_trace(s)`
return `Some`, refuting the claimed equivalence. -/
theorem not_search_iff_cex :
    (searchTrace (.not (.regex (· == "a"))) ["a", "b"]).isSome = true ∧
    (searchTrace (.regex (· == "a")) ["a", "b"]).isSome = true := by decide

/-- Witness for the amended C2 at `m' = Regex "z"`, `s = ["a"]`. -/
theorem not_search_witness :
    (searchTrace (.not (.regex (· == "z"))) ["a"]).isSome = true :=
  not_search_some_of_none _ _ (by decide) (by decide)

/-- Claim C8: the query `{a}..!{b}`, parsed as
`Then(Regex "a", Not(Skip(Regex "b")))` (src/matcher/parser.rs 21-24),
matches the bottom-first sample `[b, a, c]` and fails on `[a, b]`. -/
theorem then_not_skip_scenario :
    (searchTrace (.thenM (.regex (· == "a")) (.not (.skip (.regex (· == "b")) .empty)))
        ["b", "a", "c"]).isSome = true ∧
    searchTrace (.thenM (.regex (· == "a")) (.not (.skip (.regex (· == "b")) .empty)))
        ["a", "b"] = none := by decide

/-! ## `util::percent` (src/util.rs 1-6)

The Rust function is

    pub fn percent(num: usize, denom: usize) -> u32 {
        let num: f64 = num as f64;
        let denom: f64 = denom as f64;
        let percent: f64 = num * 100.0 / denom;
        percent as u32
    }

We model the IEEE-754 binary64 arithmetic exactly: every intermediate double
that can arise here is non-negative and, when finite, a dyadic rational
`m · 2^e` with a 53-bit mantissa.  Casting `usize → f64` and each arithmetic
operation rounds the exact result to 53 significant bits, nearest-even.  For
`usize` inputs all intermediates stay far inside the normal finite range
(the largest is `2^64 · 100 < 2^71`, the smallest positive is
`100 / 2^64 > 2^-58`), so overflow to infinity and subnormal rounding never
occur except for division by zero, which produces `+inf` (or NaN for `0/0`);
`as u32` saturates (`inf ↦ u32::MAX`, `NaN ↦ 0`, values ≥ 2^32 ↦ u32::MAX,
otherwise truncation toward zero). -/

/-- Fuel-driven `⌊log₂ n⌋` (the fuel makes kernel reduction structural). -/
def lg2F : ℕ → ℕ → ℕ
  | 0, _ => 0
  | f + 1, n => if 2 ≤ n then lg2F f (n / 2) + 1 else 0

def lg2 (n : ℕ) : ℕ := lg2F n n

theorem lg2F_spec : ∀ (f n : ℕ), 1 ≤ n → n ≤ f → 2 ^ lg2F f n ≤ n ∧ n < 2 ^ (lg2F f n + 1) := by
  intro f
  induction f with
  | zero => intro n h1 h2; omega
  | succ f ih =>
    intro n h1 h2
    by_cases h : 2 ≤ n
    · have hrec := ih (n / 2) (by omega) (by omega)
      simp [lg2F, h]
      constructor
      · calc 2 ^ (lg2F f (n / 2) + 1) = 2 ^ lg2F f (n / 2) * 2 := by ring
        _ ≤ (n / 2) * 2 := by omega
        _ ≤ n := by omega
      · have : n / 2 < 2 ^ (lg2F f (n / 2) + 1) := hrec.2
        calc n < (n / 2) * 2 + 2 := by omega
        _ ≤ 2 ^ (lg2F f (n / 2) + 1) * 2 := by omega
        _ = 2 ^ (lg2F f (n / 2) + 1 + 1) := by ring
    · simp [lg2F, h]
      omega

theorem lg2_le {n : ℕ} (h : 1 ≤ n) : 2 ^ lg2 n ≤ n := (lg2F_spec n n h le_rfl).1

theorem lg2_lt {n : ℕ} (h : 1 ≤ n) : n < 2 ^ (lg2 n + 1) := (lg2F_spec n n h le_rfl).2


/-- Round the non-negative dyadic value `m · 2^e` to 53 significant bits,
nearest-even. -/
def roundDy (m : ℕ) (e : ℤ) : ℕ × ℤ :=
  if m < 2 ^ 53 then (m, e)
  else
    (if 2 ^ (lg2 m - 52 - 1) < m % 2 ^ (lg2 m - 52) then m / 2 ^ (lg2 m - 52) + 1
     else if m % 2 ^ (lg2 m - 52) < 2 ^ (lg2 m - 52 - 1) then m / 2 ^ (lg2 m - 52)
     else if m / 2 ^ (lg2 m - 52) % 2 = 0 then m / 2 ^ (lg2 m - 52)
     else m / 2 ^ (lg2 m - 52) + 1,
     e + (lg2 m - 52))

/-- The binade exponent `⌊log₂ (a/b)⌋` of a positive rational `a / b`:
either `lg2 a - lg2 b` or one less, decided by an exact comparison. -/
def klog (a b : ℕ) : ℤ :=
  if (0 ≤ (lg2 a : ℤ) - (lg2 b : ℤ) ∧ b * 2 ^ ((lg2 a : ℤ) - (lg2 b : ℤ)).toNat ≤ a)
      ∨ ((lg2 a : ℤ) - (lg2 b : ℤ) < 0 ∧ b ≤ a * 2 ^ (-((lg2 a : ℤ) - (lg2 b : ℤ))).toNat)
    then (lg2 a : ℤ) - (lg2 b : ℤ)
    else (lg2 a : ℤ) - (lg2 b : ℤ) - 1

/-- Round-half-even of the rational `x / y` to an integer. -/
def roundRatCore (x y : ℕ) : ℕ :=
  if y < 2 * (x % y) then x / y + 1
  else if 2 * (x % y) < y then x / y
  else if x / y % 2 = 0 then x / y
  else x / y + 1

/-- Round the non-negative rational `a / b` (with `b ≥ 1`) to nearest-even
with 53 significant bits, returned as mantissa and exponent: the mantissa is
the half-even rounding of `(a/b) · 2^(-e)` at `e = ⌊log₂ (a/b)⌋ - 52`. -/
def roundRat (a b : ℕ) : ℕ × ℤ :=
  if a = 0 then (0, 0)
  else if 0 ≤ klog a b - 52 then
    (roundRatCore a (b * 2 ^ (klog a b - 52).toNat), klog a b - 52)
  else
    (roundRatCore (a * 2 ^ (-(klog a b - 52)).toNat) b, klog a b - 52)

/-- The Rust `util::percent` (src/util.rs 1-6), modelled exactly as described above. -/
def percent (num denom : ℕ) : ℕ :=
  let fn := roundDy num 0
  let fd := roundDy denom 0
  let p := roundDy (fn.1 * 100) fn.2
  if fd.1 = 0 then
    if p.1 = 0 then 0 else 2 ^ 32 - 1
  else
    let q := roundRat p.1 fd.1
    let e := q.2 + p.2 - fd.2
    let v := if 0 ≤ e then q.1 * 2 ^ e.toNat else q.1 / 2 ^ (-e).toNat
    if 2 ^ 32 ≤ v then 2 ^ 32 - 1 else v

/-! ### Lemmas about the `percent` model -/

theorem roundDy_small {m : ℕ} (e : ℤ) (h : m < 2 ^ 53) : roundDy m e = (m, e) := by
  unfold roundDy
  rw [if_pos h]

theorem roundDy_fst_pos {m : ℕ} (e : ℤ) (h : 1 ≤ m) : 1 ≤ (roundDy m e).1 := by
  unfold roundDy
  by_cases h1 : m < 2 ^ 53
  · rw [if_pos h1]
    exact h
  · rw [if_neg h1]
    push_neg at h1
    have hlg : 53 ≤ lg2 m := by
      have := lg2_lt (show 1 ≤ m by omega)
      by_contra hc
      push_neg at hc
      have : 2 ^ (lg2 m + 1) ≤ 2 ^ 53 := Nat.pow_le_pow_right (by norm_num) (by omega)
      omega
    have hsle : 2 ^ (lg2 m - 52) ≤ m := by
      calc 2 ^ (lg2 m - 52) ≤ 2 ^ lg2 m := Nat.pow_le_pow_right (by norm_num) (by omega)
      _ ≤ m := lg2_le (by omega)
    have hq : 1 ≤ m / 2 ^ (lg2 m - 52) := by
      rw [Nat.le_div_iff_mul_le (Nat.pos_pow_of_pos _ (by norm_num))]
      omega
    simp only
    split_ifs <;> omega

theorem klog_pow_le (a b : ℕ) (ha : 1 ≤ a) (hb : 1 ≤ b) (hk : 0 ≤ klog a b) :
    b * 2 ^ (klog a b).toNat ≤ a := by
  have hla := lg2_le ha
  have hlb := lg2_lt hb
  unfold klog at hk ⊢
  split_ifs at hk ⊢ with h
  · rcases h with ⟨h0, hle⟩ | ⟨h0, hq⟩
    · exact hle
    · omega
  · -- the exponent is `lg2 a - lg2 b - 1`; the bound follows from the
    -- two-sided `lg2` estimates alone
    have h1 : (1 : ℤ) ≤ (lg2 a : ℤ) - (lg2 b : ℤ) := by omega
    have h2 : ((lg2 a : ℤ) - (lg2 b : ℤ) - 1).toNat = lg2 a - lg2 b - 1 := by omega
    rw [h2]
    have h3 : lg2 b + 1 + (lg2 a - lg2 b - 1) = lg2 a := by omega
    refine le_of_lt ?_
    calc b * 2 ^ (lg2 a - lg2 b - 1) ≤ (2 ^ (lg2 b + 1) - 1) * 2 ^ (lg2 a - lg2 b - 1) := by
          have hble : b ≤ 2 ^ (lg2 b + 1) - 1 := by omega
          exact Nat.mul_le_mul_right _ hble
    _ < 2 ^ (lg2 b + 1) * 2 ^ (lg2 a - lg2 b - 1) := by
          have hp : 0 < 2 ^ (lg2 a - lg2 b - 1) := Nat.pos_pow_of_pos _ (by norm_num)
          have hq : 0 < 2 ^ (lg2 b + 1) := Nat.pos_pow_of_pos _ (by norm_num)
          exact (Nat.mul_lt_mul_right hp).mpr (by omega)
    _ = 2 ^ lg2 a := by rw [← pow_add, h3]
    _ ≤ a := hla

theorem roundRatCore_floor (a b s : ℕ) (hb : 1 ≤ b) (hb2 : b < 2 * 2 ^ s) :
    roundRatCore (a * 2 ^ s) b / 2 ^ s = a / b := by
  have hpow : 0 < 2 ^ s := Nat.pos_pow_of_pos _ (by norm_num)
  have hdm := Nat.div_add_mod a b
  have hmod : a % b < b := Nat.mod_lt _ (by omega)
  have hr1 : (a / b + 1) * b = b * (a / b) + b := by ring
  have h1 : a / b * b ≤ a := Nat.div_mul_le_self a b
  have h2 : a + 1 ≤ (a / b + 1) * b := by omega
  have hqr := Nat.div_add_mod (a * 2 ^ s) b
  have hrA : a * 2 ^ s % b < b := Nat.mod_lt _ (by omega)
  have hlow : a / b * 2 ^ s ≤ a * 2 ^ s / b := by
    rw [Nat.le_div_iff_mul_le (show 0 < b by omega)]
    calc a / b * 2 ^ s * b = a / b * b * 2 ^ s := by ring
    _ ≤ a * 2 ^ s := Nat.mul_le_mul_right _ h1
  have hupq : a * 2 ^ s / b < (a / b + 1) * 2 ^ s := by
    rw [Nat.div_lt_iff_lt_mul (show 0 < b by omega)]
    calc a * 2 ^ s < ((a / b + 1) * b) * 2 ^ s := by
          exact (Nat.mul_lt_mul_right hpow).mpr (by omega)
    _ = (a / b + 1) * 2 ^ s * b := by ring
  have hup1 : b ≤ 2 * (a * 2 ^ s % b) → a * 2 ^ s / b + 1 < (a / b + 1) * 2 ^ s := by
    intro hbr
    have ha2 : a * 2 ^ s + 2 ^ s ≤ (a / b + 1) * b * 2 ^ s := by
      calc a * 2 ^ s + 2 ^ s = (a + 1) * 2 ^ s := by ring
      _ ≤ ((a / b + 1) * b) * 2 ^ s := Nat.mul_le_mul_right _ h2
    have hq1b : (a * 2 ^ s / b + 1) * b = b * (a * 2 ^ s / b) + b := by ring
    have heq : (a / b + 1) * 2 ^ s * b = (a / b + 1) * b * 2 ^ s := by ring
    have hkey : (a * 2 ^ s / b + 1) * b < (a / b + 1) * 2 ^ s * b := by omega
    exact Nat.lt_of_mul_lt_mul_right hkey
  unfold roundRatCore
  split_ifs with hc1 hc2 hc3
  · exact Nat.div_eq_of_lt_le (by omega) (hup1 (by omega))
  · exact Nat.div_eq_of_lt_le hlow hupq
  · exact Nat.div_eq_of_lt_le hlow hupq
  · exact Nat.div_eq_of_lt_le (by omega) (hup1 (by omega))

theorem roundRat_cast (a b : ℕ) (hb : 1 ≤ b) (hb53 : b < 2 ^ 53) (ha53 : a < 2 ^ 53) :
    (if 0 ≤ (roundRat a b).2 then (roundRat a b).1 * 2 ^ (roundRat a b).2.toNat
     else (roundRat a b).1 / 2 ^ (-(roundRat a b).2).toNat) = a / b := by
  by_cases ha0 : a = 0
  · subst ha0
    simp [roundRat, Nat.zero_div]
  · have ha : 1 ≤ a := by omega
    have hk52 : klog a b ≤ 52 := by
      by_contra hgt
      push_neg at hgt
      have h0 : 0 ≤ klog a b := by omega
      have hle := klog_pow_le a b ha hb h0
      have h53 : (53 : ℕ) ≤ (klog a b).toNat := by omega
      have h53a : 2 ^ 53 ≤ a :=
        calc (2 : ℕ) ^ 53 ≤ 2 ^ (klog a b).toNat := Nat.pow_le_pow_right (by norm_num) h53
        _ ≤ b * 2 ^ (klog a b).toNat := Nat.le_mul_of_pos_left _ (by omega)
        _ ≤ a := hle
      omega
    by_cases he0 : 0 ≤ klog a b - 52
    · -- then the exponent is zero, `k = 52`, and necessarily `b = 1`
      have hke : klog a b = 52 := by omega
      have hb1 : b = 1 := by
        have hle := klog_pow_le a b ha hb (by omega)
        have ht : (klog a b).toNat = 52 := by omega
        rw [ht] at hle
        by_contra hne
        have hmul : 2 * 2 ^ 52 ≤ b * 2 ^ 52 := Nat.mul_le_mul_right _ (by omega)
        have : (2 : ℕ) ^ 53 ≤ b * 2 ^ 52 := by
          calc (2 : ℕ) ^ 53 = 2 * 2 ^ 52 := by norm_num
          _ ≤ b * 2 ^ 52 := hmul
        omega
      subst hb1
      unfold roundRat
      rw [if_neg ha0, if_pos he0, hke]
      norm_num
      have hcore := roundRatCore_floor a 1 0 le_rfl (by norm_num)
      simpa using hcore
    · unfold roundRat
      rw [if_neg ha0, if_neg he0]
      simp only
      rw [if_neg he0]
      have hb2 : b < 2 * 2 ^ (-(klog a b - 52)).toNat := by
        by_cases hk0 : 0 ≤ klog a b
        · have hle := klog_pow_le a b ha hb hk0
          have hs : (klog a b).toNat + (-(klog a b - 52)).toNat = 52 := by omega
          by_contra hge
          push_neg at hge
          have hm : 2 * 2 ^ (-(klog a b - 52)).toNat * 2 ^ (klog a b).toNat
              ≤ b * 2 ^ (klog a b).toNat := Nat.mul_le_mul_right _ hge
          have h2 : 2 * 2 ^ (-(klog a b - 52)).toNat * 2 ^ (klog a b).toNat = 2 ^ 53 := by
            rw [mul_assoc, ← pow_add]
            rw [Nat.add_comm ((-(klog a b - 52)).toNat) ((klog a b).toNat), hs]
            norm_num
          omega
        · push_neg at hk0
          have h53 : (53 : ℕ) ≤ (-(klog a b - 52)).toNat := by omega
          have : (2 : ℕ) ^ 53 ≤ 2 ^ (-(klog a b - 52)).toNat :=
            Nat.pow_le_pow_right (by norm_num) h53
          omega
      exact roundRatCore_floor a b _ hb hb2

/-- Claim C6 (amended): with `d = 0` the f64 computation yields NaN for
`n = 0` (cast to 0) and `+inf` for `n > 0` (cast to `u32::MAX`), not 0; with
`0 < d` the result is the truncated percentage `⌊100·n/d⌋`, saturated at
`u32::MAX`, whenever `100·n` and `d` are exactly representable in 53 bits. -/
theorem percent_spec (n d : ℕ) :
    (d = 0 → percent n d = if n = 0 then 0 else 2 ^ 32 - 1) ∧
    (0 < d → d < 2 ^ 53 → 100 * n < 2 ^ 53 →
      percent n d = min (100 * n / d) (2 ^ 32 - 1)) := by
  constructor
  · intro hd
    subst hd
    by_cases hn : n = 0
    · subst hn
      rw [if_pos rfl]
      decide
    · rw [if_neg hn]
      show percent n 0 = 2 ^ 32 - 1
      unfold percent
      simp only
      rw [roundDy_small 0 (by norm_num : (0 : ℕ) < 2 ^ 53)]
      have hfn : 1 ≤ (roundDy n 0).1 := roundDy_fst_pos 0 (by omega)
      have hp : 1 ≤ (roundDy ((roundDy n 0).1 * 100) (roundDy n 0).2).1 :=
        roundDy_fst_pos _ (by
          have : 1 * 1 ≤ (roundDy n 0).1 * 100 := Nat.mul_le_mul hfn (by norm_num)
          omega)
      rw [if_pos rfl, if_neg (by omega)]
  · intro hd hd53 hn53
    have hn : n < 2 ^ 53 := by omega
    unfold percent
    simp only
    rw [roundDy_small 0 hn, roundDy_small 0 hd53]
    simp only
    rw [roundDy_small 0 (by omega : n * 100 < 2 ^ 53)]
    rw [if_neg (by omega : ¬ d = 0)]
    simp only [add_zero, sub_zero]
    have hc := roundRat_cast (n * 100) d (by omega) hd53 (by omega)
    rw [hc]
    have h100 : n * 100 = 100 * n := by ring
    rw [h100]
    rcases le_or_lt (2 ^ 32) (100 * n / d) with hge | hlt
    · rw [if_pos hge, Nat.min_def, if_neg (by omega)]
    · rw [if_neg (by omega), Nat.min_def, if_pos (by omega)]

/-- Counterexample to claim C6 as stated: a divisor of zero with a non-zero
numerator yields `u32::MAX` (the f64 quotient is `+inf`), not zero. -/
theorem percent_zero_denom_cex : percent 1 0 = 2 ^ 32 - 1 ∧ percent 1 0 ≠ 0 := by decide

/-- Witness for the amended C6 at `(1, 0)` and `(1, 3)`. -/
theorem percent_spec_witness : percent 1 0 = 2 ^ 32 - 1 ∧ percent 1 3 = 33 := by
  constructor
  · have h := (percent_spec 1 0).1 rfl
    simpa using h
  · have h := (percent_spec 1 3).2 (by norm_num) (by norm_num) (by norm_num)
    simpa using h

/-! ## Prefix tree (src/tree/mod.rs) -/

/-- The Rust `struct TreeNode` (src/tree/mod.rs 39-51). -/
inductive TreeNode where
  | mk (label : String) (hits_total hits_self : ℕ) (children : List TreeNode)

def TreeNode.label : TreeNode → String
  | .mk l _ _ _ => l

def TreeNode.hits_total : TreeNode → ℕ
  | .mk _ t _ _ => t

def TreeNode.hits_self : TreeNode → ℕ
  | .mk _ _ s _ => s

def TreeNode.children : TreeNode → List TreeNode
  | .mk _ _ _ c => c

/-- The Rust `TreeNode::new` (src/tree/mod.rs 100-107). -/
def TreeNode.new (label : String) : TreeNode := .mk label 0 0 []

/-- The loop over `self.children` inside `TreeNode::add_frames`
(src/tree/mod.rs 215-225): recurse into the first child whose label matches,
or push a fresh node and recurse into it.  The continuation `k` is the
recursive `add_frames` call on the remaining frames. -/
def TreeNode.childLoop (k : TreeNode → TreeNode) (f : String) : List TreeNode → List TreeNode
  | [] => [k (TreeNode.new f)]
  | c :: cs => if c.label = f then k c :: cs else c :: TreeNode.childLoop k f cs

/-- The Rust `TreeNode::add_frames` (src/tree/mod.rs 210-229). -/
def TreeNode.add_frames : TreeNode → List String → TreeNode
  | .mk label tot self children, [] => .mk label (tot + 1) (self + 1) children
  | .mk label tot self children, f :: rest =>
    .mk label (tot + 1) self (TreeNode.childLoop (fun c => TreeNode.add_frames c rest) f children)

/-- The collapsed child of `TreeNode::rollup` (src/tree/mod.rs 155-156):
`c.hits_total = 0`, everything else untouched. -/
def TreeNode.zeroTotal : TreeNode → TreeNode
  | .mk label _ self children => .mk label 0 self children

mutual
/-- The Rust `TreeNode::rollup` (src/tree/mod.rs 137-164), returning the updated node
together with the boolean the Rust method returns (`false` means "collapse
me into the parent").  The `assert!(c.hits_total > 0)` on the kept branch is
not modelled; the subsequent `retain` is the final `filter`. -/
def TreeNode.rollup : TreeNode → ℕ → ℕ → ℕ → ℕ → TreeNode × Bool
  | .mk label tot self children, parents, total_samples, max_depth, min_percent =>
    if percent tot total_samples < min_percent then (.mk label tot self children, false)
    else if max_depth < parents then (.mk label tot self children, false)
    else
      (.mk label tot
        (self +
          (TreeNode.rollupChildren children (parents + 1) total_samples max_depth min_percent).2)
        (((TreeNode.rollupChildren children (parents + 1) total_samples max_depth
              min_percent).1).filter (fun c => c.hits_total ≠ 0)),
       true)
  termination_by structural t => t

/-- The loop over `self.children` inside `TreeNode::rollup`
(src/tree/mod.rs 153-160): the second component accumulates the
`hits_total` of collapsed children, added to the parent's `hits_self`. -/
def TreeNode.rollupChildren : List TreeNode → ℕ → ℕ → ℕ → ℕ → List TreeNode × ℕ
  | [], _, _, _, _ => ([], 0)
  | c :: cs, parents, total_samples, max_depth, min_percent =>
    if (TreeNode.rollup c parents total_samples max_depth min_percent).2 then
      ((TreeNode.rollup c parents total_samples max_depth min_percent).1 ::
        (TreeNode.rollupChildren cs parents total_samples max_depth min_percent).1,
       (TreeNode.rollupChildren cs parents total_samples max_depth min_percent).2)
    else
      (TreeNode.zeroTotal c ::
        (TreeNode.rollupChildren cs parents total_samples max_depth min_percent).1,
       (TreeNode.rollupChildren cs parents total_samples max_depth min_percent).2 + c.hits_total)
  termination_by structural cs => cs
end

mutual
/-- The Rust `TreeNode::sort` (src/tree/mod.rs 109-114): sort children by descending
`hits_total` (the Rust key is `usize::MAX - hits_total`, ascending, stable),
then sort each child recursively.  Insertion sort is stable, so it computes
the same list as Rust's stable `sort_by_key`; sorting the recursively
sorted children is the same as the source's order of operations because the
recursive sort does not change any `hits_total`. -/
def TreeNode.sort : TreeNode → TreeNode
  | .mk label tot self children =>
    .mk label tot self
      (List.insertionSort (fun a b => b.hits_total ≤ a.hits_total)
        (TreeNode.sortList children))
  termination_by structural t => t

def TreeNode.sortList : List TreeNode → List TreeNode
  | [] => []
  | c :: cs => TreeNode.sort c :: TreeNode.sortList cs
  termination_by structural cs => cs
end

/-- The Rust `struct Tree` (src/tree/mod.rs 35-37). -/
structure Tree where
  root_node : TreeNode

/-- The Rust `Tree::new` (src/tree/mod.rs 53-58). -/
def Tree.new : Tree := ⟨TreeNode.new "<root>"⟩

/-- The Rust `impl AddFrames for Tree` (src/tree/mod.rs 232-238). -/
def Tree.add_frames (t : Tree) (frames : List String) : Tree :=
  ⟨t.root_node.add_frames frames⟩

/-- The Rust `Tree::sort` (src/tree/mod.rs 60-62). -/
def Tree.sort (t : Tree) : Tree := ⟨t.root_node.sort⟩

/-- The Rust `Tree::rollup` (src/tree/mod.rs 64-75): call `rollup` on each direct
child of the root — discarding the returned boolean, so the root's children
are never collapsed — then re-sort. -/
def Tree.rollup (t : Tree) (total_samples max_depth min_percent : ℕ) : Tree :=
  Tree.sort ⟨match t.root_node with
    | .mk label tot self children =>
      .mk label tot self
        (children.map (fun c => (TreeNode.rollup c 0 total_samples max_depth min_percent).1))⟩

/-- A tree built from an empty tree by one `add_frames` call per sample, as
the driver does. -/
def Tree.ofSamples (samples : List (List String)) : Tree :=
  samples.foldl Tree.add_frames Tree.new

/-- Sum of the `hits_total` fields of a list of nodes. -/
def TreeNode.sumTotals : List TreeNode → ℕ
  | [] => 0
  | c :: cs => c.hits_total + TreeNode.sumTotals cs

mutual
/-- The subtree-sum invariant: every node's `hits_total` is its `hits_self`
plus the sum of its children's `hits_total`. -/
def TreeNode.invariant : TreeNode → Prop
  | .mk _ tot self children =>
    tot = self + TreeNode.sumTotals children ∧ TreeNode.invariantList children
  termination_by structural t => t

def TreeNode.invariantList : List TreeNode → Prop
  | [] => True
  | c :: cs => TreeNode.invariant c ∧ TreeNode.invariantList cs
  termination_by structural cs => cs
end

mutual
/-- All nodes of a subtree, the node itself included. -/
def TreeNode.allNodes : TreeNode → List TreeNode
  | .mk label tot self children =>
    .mk label tot self children :: TreeNode.allNodesList children
  termination_by structural t => t

def TreeNode.allNodesList : List TreeNode → List TreeNode
  | [] => []
  | c :: cs => TreeNode.allNodes c ++ TreeNode.allNodesList cs
  termination_by structural cs => cs
end

mutual
/-- Every strict descendant of `t` (which sits at `parents` depth `p`)
satisfies the rollup thresholds: percentage at least `min_percent` and
`parents` depth at most `max_depth`. -/
def TreeNode.rollupBoundsOK : TreeNode → ℕ → ℕ → ℕ → ℕ → Bool
  | .mk _ _ _ children, total_samples, max_depth, min_percent, p =>
    TreeNode.rollupBoundsOKList children total_samples max_depth min_percent (p + 1)
  termination_by structural t => t

def TreeNode.rollupBoundsOKList : List TreeNode → ℕ → ℕ → ℕ → ℕ → Bool
  | [], _, _, _, _ => true
  | c :: cs, total_samples, max_depth, min_percent, p =>
    decide (min_percent ≤ percent c.hits_total total_samples) &&
      decide (p ≤ max_depth) &&
      TreeNode.rollupBoundsOK c total_samples max_depth min_percent p &&
      TreeNode.rollupBoundsOKList cs total_samples max_depth min_percent p
  termination_by structural cs => cs
end

/-! ### Lemmas about the tree -/

theorem TreeNode.strongInd (P : TreeNode → Prop)
    (h : ∀ l tot self children, (∀ c ∈ children, P c) → P (.mk l tot self children)) :
    ∀ t, P t := by
  suffices h2 : ∀ (n : ℕ) (t : TreeNode), sizeOf t ≤ n → P t by
    intro t
    exact h2 (sizeOf t) t le_rfl
  intro n
  induction n with
  | zero =>
    intro t ht
    cases t with
    | mk l tot self cs => simp at ht
  | succ n ih =>
    intro t ht
    cases t with
    | mk l tot self cs =>
      apply h
      intro c hc
      apply ih
      have h1 := List.sizeOf_lt_of_mem hc
      simp at ht
      omega

theorem invariantList_iff :
    ∀ (cs : List TreeNode), TreeNode.invariantList cs ↔ ∀ c ∈ cs, TreeNode.invariant c := by
  intro cs
  induction cs with
  | nil => simp [TreeNode.invariantList]
  | cons c cs ih => simp [TreeNode.invariantList, ih]

theorem invariant_mk (l : String) (tot self : ℕ) (cs : List TreeNode) :
    TreeNode.invariant (.mk l tot self cs) ↔
      tot = self + TreeNode.sumTotals cs ∧ TreeNode.invariantList cs := by
  simp [TreeNode.invariant]

theorem add_frames_spec : ∀ (fs : List String) (t : TreeNode),
    (t.add_frames fs).hits_total = t.hits_total + 1 ∧
    (t.invariant → (t.add_frames fs).invariant) := by
  intro fs
  induction fs with
  | nil =>
    intro t
    cases t with
    | mk l tot self cs =>
      refine ⟨rfl, fun h => ?_⟩
      rw [invariant_mk] at h
      show (TreeNode.mk l (tot + 1) (self + 1) cs).invariant
      rw [invariant_mk]
      exact ⟨by omega, h.2⟩
  | cons f rest ih =>
    intro t
    cases t with
    | mk l tot self cs =>
      have hnew : TreeNode.invariant (TreeNode.new f) := by
        rw [TreeNode.new, invariant_mk]
        exact ⟨rfl, trivial⟩
      have hcl : ∀ (cs' : List TreeNode),
          TreeNode.sumTotals (TreeNode.childLoop (fun c => TreeNode.add_frames c rest) f cs') =
            TreeNode.sumTotals cs' + 1 ∧
          (TreeNode.invariantList cs' →
            TreeNode.invariantList
              (TreeNode.childLoop (fun c => TreeNode.add_frames c rest) f cs')) := by
        intro cs'
        induction cs' with
        | nil =>
          refine ⟨?_, fun _ => ?_⟩
          · have h1 := (ih (TreeNode.new f)).1
            have h0 : (TreeNode.new f).hits_total = 0 := rfl
            simp [TreeNode.childLoop, TreeNode.sumTotals, h1, h0]
          · have h2 := (ih (TreeNode.new f)).2 hnew
            simp [TreeNode.childLoop, TreeNode.invariantList]
            exact h2
        | cons c cs'' ihcl =>
          by_cases hl : c.label = f
          · refine ⟨?_, fun h => ?_⟩
            · have h1 := (ih c).1
              simp [TreeNode.childLoop, hl, TreeNode.sumTotals]
              omega
            · simp [TreeNode.childLoop, hl, TreeNode.invariantList] at h ⊢
              exact ⟨(ih c).2 h.1, h.2⟩
          · refine ⟨?_, fun h => ?_⟩
            · have h1 := (ihcl).1
              simp [TreeNode.childLoop, hl, TreeNode.sumTotals]
              omega
            · simp [TreeNode.childLoop, hl, TreeNode.invariantList] at h ⊢
              exact ⟨h.1, (ihcl).2 h.2⟩
      refine ⟨rfl, fun h => ?_⟩
      rw [invariant_mk] at h
      show (TreeNode.mk l (tot + 1) self
        (TreeNode.childLoop (fun c => TreeNode.add_frames c rest) f cs)).invariant
      rw [invariant_mk]
      refine ⟨?_, (hcl cs).2 h.2⟩
      have := (hcl cs).1
      omega

theorem ofSamples_spec (ss : List (List String)) :
    (Tree.ofSamples ss).root_node.invariant ∧
      (Tree.ofSamples ss).root_node.hits_total = ss.length := by
  suffices h : ∀ (l : List (List String)) (t : Tree), t.root_node.invariant →
      (l.foldl Tree.add_frames t).root_node.invariant ∧
      (l.foldl Tree.add_frames t).root_node.hits_total = t.root_node.hits_total + l.length by
    have hbase : (Tree.new).root_node.invariant := by
      rw [Tree.new, TreeNode.new, invariant_mk]
      exact ⟨rfl, trivial⟩
    have := h ss Tree.new hbase
    unfold Tree.ofSamples
    refine ⟨this.1, ?_⟩
    rw [this.2]
    have h0 : (Tree.new).root_node.hits_total = 0 := rfl
    omega
  intro l
  induction l with
  | nil => intro t ht; exact ⟨ht, rfl⟩
  | cons s l ih =>
    intro t ht
    have hs := add_frames_spec s t.root_node
    have := ih ⟨t.root_node.add_frames s⟩ (hs.2 ht)
    refine ⟨this.1, ?_⟩
    rw [List.foldl_cons]
    have h2 : List.foldl Tree.add_frames (t.add_frames s) l =
        List.foldl Tree.add_frames ⟨t.root_node.add_frames s⟩ l := rfl
    rw [h2, this.2]
    simp [hs.1, List.length_cons]
    omega

theorem rollup_fst_total (t : TreeNode) (p T D M : ℕ) :
    ((t.rollup p T D M).1).hits_total = t.hits_total := by
  cases t with
  | mk l tot self cs =>
    unfold TreeNode.rollup
    split_ifs <;> rfl

theorem zeroTotal_total (c : TreeNode) : (TreeNode.zeroTotal c).hits_total = 0 := by
  cases c; rfl

theorem rollup_snd_iff (t : TreeNode) (p T D M : ℕ) :
    (t.rollup p T D M).2 = true ↔ M ≤ percent t.hits_total T ∧ p ≤ D := by
  cases t with
  | mk l tot self cs =>
    unfold TreeNode.rollup
    split_ifs with h1 h2 <;> simp [TreeNode.hits_total] <;> omega

theorem rollupChildren_mem (p T D M : ℕ) :
    ∀ (cs : List TreeNode) (x : TreeNode), x ∈ (TreeNode.rollupChildren cs p T D M).1 →
      (∃ c ∈ cs, (TreeNode.rollup c p T D M).2 = true ∧ x = (TreeNode.rollup c p T D M).1) ∨
        x.hits_total = 0 := by
  intro cs
  induction cs with
  | nil => intro x hx; simp [TreeNode.rollupChildren] at hx
  | cons c cs ih =>
    intro x hx
    unfold TreeNode.rollupChildren at hx
    split_ifs at hx with hok
    · rcases List.mem_cons.mp hx with h | h
      · exact Or.inl ⟨c, List.mem_cons_self c cs, hok, h⟩
      · rcases ih x h with ⟨c0, hc0, h1, h2⟩ | h0
        · exact Or.inl ⟨c0, List.mem_cons_of_mem _ hc0, h1, h2⟩
        · exact Or.inr h0
    · rcases List.mem_cons.mp hx with h | h
      · subst h
        exact Or.inr (zeroTotal_total c)
      · rcases ih x h with ⟨c0, hc0, h1, h2⟩ | h0
        · exact Or.inl ⟨c0, List.mem_cons_of_mem _ hc0, h1, h2⟩
        · exact Or.inr h0

theorem rollupChildren_sum (p T D M : ℕ) :
    ∀ (cs : List TreeNode),
      TreeNode.sumTotals (TreeNode.rollupChildren cs p T D M).1 +
        (TreeNode.rollupChildren cs p T D M).2 = TreeNode.sumTotals cs := by
  intro cs
  induction cs with
  | nil => rfl
  | cons c cs ih =>
    unfold TreeNode.rollupChildren
    split_ifs with hok
    · simp [TreeNode.sumTotals, rollup_fst_total]
      omega
    · simp [TreeNode.sumTotals, zeroTotal_total]
      omega

theorem sumTotals_filter_ne :
    ∀ (l : List TreeNode),
      TreeNode.sumTotals (l.filter (fun c => c.hits_total ≠ 0)) = TreeNode.sumTotals l := by
  intro l
  induction l with
  | nil => rfl
  | cons c cs ih =>
    have hsum : TreeNode.sumTotals (c :: cs) = c.hits_total + TreeNode.sumTotals cs := rfl
    by_cases h : c.hits_total = 0
    · have hf : List.filter (fun c => decide (c.hits_total ≠ 0)) (c :: cs) =
          List.filter (fun c => decide (c.hits_total ≠ 0)) cs := by
        rw [List.filter_cons, if_neg (by simp [h])]
      rw [hf, ih, hsum, h]
      omega
    · have hf : List.filter (fun c => decide (c.hits_total ≠ 0)) (c :: cs) =
          c :: List.filter (fun c => decide (c.hits_total ≠ 0)) cs := by
        rw [List.filter_cons, if_pos (by simp [h])]
      rw [hf]
      have hsum2 : TreeNode.sumTotals
          (c :: List.filter (fun c => decide (c.hits_total ≠ 0)) cs) =
          c.hits_total + TreeNode.sumTotals
            (List.filter (fun c => decide (c.hits_total ≠ 0)) cs) := rfl
      rw [hsum2, ih, hsum]

theorem rollup_invariant :
    ∀ (t : TreeNode), t.invariant → ∀ (p T D M : ℕ), ((t.rollup p T D M).1).invariant := by
  refine TreeNode.strongInd _ ?_
  intro l tot self cs ih hinv p T D M
  unfold TreeNode.rollup
  split_ifs with h1 h2
  · exact hinv
  · exact hinv
  · rw [invariant_mk] at hinv ⊢
    constructor
    · rw [sumTotals_filter_ne]
      have hs := rollupChildren_sum (p + 1) T D M cs
      omega
    · rw [invariantList_iff]
      intro x hx
      have hx2 := List.mem_filter.mp hx
      rcases rollupChildren_mem (p + 1) T D M cs x hx2.1 with ⟨c0, hc0, _, hx3⟩ | h0
      · subst hx3
        exact ih c0 hc0 ((invariantList_iff cs).mp hinv.2 c0 hc0) (p + 1) T D M
      · exact absurd h0 (by simpa using hx2.2)

theorem boundsOKList_iff (T D M p : ℕ) :
    ∀ (cs : List TreeNode), TreeNode.rollupBoundsOKList cs T D M p = true ↔
      ∀ c ∈ cs, M ≤ percent c.hits_total T ∧ p ≤ D ∧ TreeNode.rollupBoundsOK c T D M p = true := by
  intro cs
  induction cs with
  | nil => simp [TreeNode.rollupBoundsOKList]
  | cons c cs ih =>
    simp [TreeNode.rollupBoundsOKList, ih]
    tauto

theorem rollup_boundsOK :
    ∀ (t : TreeNode) (p T D M : ℕ), (t.rollup p T D M).2 = true →
      TreeNode.rollupBoundsOK ((t.rollup p T D M).1) T D M p = true := by
  refine TreeNode.strongInd _ ?_
  intro l tot self cs ih p T D M hok
  unfold TreeNode.rollup at hok ⊢
  split_ifs at hok ⊢ with h1 h2
  have hred : (TreeNode.mk l tot (self + (TreeNode.rollupChildren cs (p + 1) T D M).2)
        (List.filter (fun c => decide (c.hits_total ≠ 0))
          (TreeNode.rollupChildren cs (p + 1) T D M).1),
       true).1.rollupBoundsOK T D M p
      = TreeNode.rollupBoundsOKList
          (List.filter (fun c => decide (c.hits_total ≠ 0))
            (TreeNode.rollupChildren cs (p + 1) T D M).1) T D M (p + 1) := by
    simp [TreeNode.rollupBoundsOK]
  rw [hred, boundsOKList_iff]
  intro x hx
  have hx2 := List.mem_filter.mp hx
  rcases rollupChildren_mem (p + 1) T D M cs x hx2.1 with ⟨c0, hc0, hcok, hx3⟩ | h0
  · have hiff := (rollup_snd_iff c0 (p + 1) T D M).mp hcok
    have htot := rollup_fst_total c0 (p + 1) T D M
    subst hx3
    exact ⟨by rw [htot]; exact hiff.1, hiff.2, ih c0 hc0 (p + 1) T D M hcok⟩
  · exact absurd h0 (by simpa using hx2.2)

theorem sortList_eq_map : ∀ (cs : List TreeNode), TreeNode.sortList cs = cs.map TreeNode.sort := by
  intro cs
  induction cs with
  | nil => rfl
  | cons c cs ih => simp [TreeNode.sortList, ih]

theorem sort_total (t : TreeNode) : (TreeNode.sort t).hits_total = t.hits_total := by
  cases t with
  | mk l tot self cs => simp [TreeNode.sort, TreeNode.hits_total]

theorem sort_children_eq (l : String) (tot self : ℕ) (cs : List TreeNode) :
    TreeNode.sort (.mk l tot self cs) =
      .mk l tot self
        (List.insertionSort (fun a b => b.hits_total ≤ a.hits_total) (TreeNode.sortList cs)) := by
  simp [TreeNode.sort]

theorem sumTotals_eq : ∀ (l : List TreeNode),
    TreeNode.sumTotals l = (l.map TreeNode.hits_total).sum := by
  intro l
  induction l with
  | nil => rfl
  | cons c cs ih => simp [TreeNode.sumTotals, ih]

theorem sumTotals_perm {l l' : List TreeNode} (h : l.Perm l') :
    TreeNode.sumTotals l = TreeNode.sumTotals l' := by
  rw [sumTotals_eq, sumTotals_eq]
  exact (h.map _).sum_eq

theorem sumTotals_map_sort : ∀ (cs : List TreeNode),
    TreeNode.sumTotals (cs.map TreeNode.sort) = TreeNode.sumTotals cs := by
  intro cs
  induction cs with
  | nil => rfl
  | cons c cs ih => simp [TreeNode.sumTotals, ih, sort_total]

theorem sort_invariant : ∀ (t : TreeNode), t.invariant → (TreeNode.sort t).invariant := by
  refine TreeNode.strongInd _ ?_
  intro l tot self cs ih hinv
  rw [invariant_mk] at hinv
  rw [sort_children_eq, invariant_mk]
  have hperm : (List.insertionSort (fun a b => b.hits_total ≤ a.hits_total)
      (TreeNode.sortList cs)).Perm (TreeNode.sortList cs) :=
    List.perm_insertionSort _ _
  constructor
  · rw [sumTotals_perm hperm, sortList_eq_map, sumTotals_map_sort]
    exact hinv.1
  · rw [invariantList_iff]
    intro x hx
    have hx2 : x ∈ TreeNode.sortList cs := hperm.mem_iff.mp hx
    rw [sortList_eq_map] at hx2
    obtain ⟨c, hc, hxc⟩ := List.mem_map.mp hx2
    subst hxc
    exact ih c hc ((invariantList_iff cs).mp hinv.2 c hc)

theorem boundsOK_mk_eq (l : String) (tot self : ℕ) (cs : List TreeNode) (T D M p : ℕ) :
    TreeNode.rollupBoundsOK (.mk l tot self cs) T D M p =
      TreeNode.rollupBoundsOKList cs T D M (p + 1) := by
  simp [TreeNode.rollupBoundsOK]

theorem sort_boundsOK : ∀ (t : TreeNode) (T D M p : ℕ),
    TreeNode.rollupBoundsOK t T D M p = true →
      TreeNode.rollupBoundsOK (TreeNode.sort t) T D M p = true := by
  refine TreeNode.strongInd _ ?_
  intro l tot self cs ih T D M p h
  rw [boundsOK_mk_eq, boundsOKList_iff] at h
  rw [sort_children_eq, boundsOK_mk_eq, boundsOKList_iff]
  intro x hx
  have hperm : (List.insertionSort (fun a b => b.hits_total ≤ a.hits_total)
      (TreeNode.sortList cs)).Perm (TreeNode.sortList cs) :=
    List.perm_insertionSort _ _
  have hx2 : x ∈ TreeNode.sortList cs := hperm.mem_iff.mp hx
  rw [sortList_eq_map] at hx2
  obtain ⟨c, hc, hxc⟩ := List.mem_map.mp hx2
  subst hxc
  obtain ⟨hp, hd, hb⟩ := h c hc
  exact ⟨by rw [sort_total]; exact hp, hd, ih c hc T D M (p + 1) hb⟩

theorem mem_allNodesList : ∀ (cs : List TreeNode) (x : TreeNode),
    x ∈ TreeNode.allNodesList cs ↔ ∃ c ∈ cs, x ∈ TreeNode.allNodes c := by
  intro cs x
  induction cs with
  | nil => simp [TreeNode.allNodesList]
  | cons c cs ih => simp [TreeNode.allNodesList, ih]

theorem allNodes_mk_eq (l : String) (tot self : ℕ) (cs : List TreeNode) :
    TreeNode.allNodes (.mk l tot self cs) =
      .mk l tot self cs :: TreeNode.allNodesList cs := by
  simp [TreeNode.allNodes]

theorem invariant_allNodes : ∀ (t : TreeNode), t.invariant →
    ∀ x ∈ TreeNode.allNodes t, x.invariant := by
  refine TreeNode.strongInd _ ?_
  intro l tot self cs ih hinv x hx
  rw [allNodes_mk_eq] at hx
  rcases List.mem_cons.mp hx with h | h
  · subst h; exact hinv
  · obtain ⟨c, hc, hxc⟩ := (mem_allNodesList cs x).mp h
    exact ih c hc ((invariantList_iff cs).mp ((invariant_mk _ _ _ _).mp hinv).2 c hc) x hxc

theorem leaf_eq_of_invariant {x : TreeNode} (h : x.invariant) (hl : x.children = []) :
    x.hits_total = x.hits_self := by
  cases x with
  | mk l tot self cs =>
    rw [invariant_mk] at h
    have : cs = [] := hl
    subst this
    have h0 : TreeNode.sumTotals [] = 0 := rfl
    have := h.1
    simp [TreeNode.hits_total, TreeNode.hits_self]
    omega

theorem rollup_root_eq (t : Tree) (T D M : ℕ) (l : String) (tot self : ℕ)
    (cs : List TreeNode) (h : t.root_node = .mk l tot self cs) :
    (Tree.rollup t T D M).root_node =
      TreeNode.sort (.mk l tot self (cs.map fun c => (TreeNode.rollup c 0 T D M).1)) := by
  unfold Tree.rollup
  rw [h]
  rfl

theorem sumTotals_map_rollupFst (T D M : ℕ) : ∀ (cs : List TreeNode),
    TreeNode.sumTotals (cs.map fun c => (TreeNode.rollup c 0 T D M).1) =
      TreeNode.sumTotals cs := by
  intro cs
  induction cs with
  | nil => rfl
  | cons c cs ih => simp [TreeNode.sumTotals, ih, rollup_fst_total]

theorem rollup_tree_invariant (t : Tree) (T D M : ℕ) (h : t.root_node.invariant) :
    (Tree.rollup t T D M).root_node.invariant ∧
      (Tree.rollup t T D M).root_node.hits_total = t.root_node.hits_total := by
  rcases hroot : t.root_node with ⟨l, tot, self, cs⟩
  rw [hroot] at h
  rw [rollup_root_eq t T D M l tot self cs hroot]
  rw [invariant_mk] at h
  have hpre : TreeNode.invariant (.mk l tot self (cs.map fun c => (TreeNode.rollup c 0 T D M).1)) := by
    rw [invariant_mk]
    constructor
    · rw [sumTotals_map_rollupFst]
      exact h.1
    · rw [invariantList_iff]
      intro x hx
      obtain ⟨c, hc, hxc⟩ := List.mem_map.mp hx
      subst hxc
      exact rollup_invariant c ((invariantList_iff cs).mp h.2 c hc) 0 T D M
  refine ⟨sort_invariant _ hpre, ?_⟩
  rw [sort_total]
  rfl

/-- Claim C9: after any sequence of `add_frames` insertions, optionally
followed by `rollup`, every node satisfies
`hits_total = hits_self + Σ child.hits_total`, and the root's `hits_total`
equals the number of insertions. -/
theorem tree_sum_invariant (ss : List (List String)) (T D M : ℕ) :
    ((Tree.ofSamples ss).root_node.invariant ∧
      (Tree.ofSamples ss).root_node.hits_total = ss.length) ∧
    ((Tree.rollup (Tree.ofSamples ss) T D M).root_node.invariant ∧
      (Tree.rollup (Tree.ofSamples ss) T D M).root_node.hits_total = ss.length) := by
  have h0 := ofSamples_spec ss
  refine ⟨h0, ?_⟩
  have h1 := rollup_tree_invariant (Tree.ofSamples ss) T D M h0.1
  exact ⟨h1.1, by rw [h1.2, h0.2]⟩

/-- Claim C10: in every tree reachable by `add_frames` insertions,
optionally followed by `sort` and `rollup`, every leaf satisfies
`hits_total = hits_self`, so the assertion inside `for_each_leaf` holds and
the visitor receives the leaf's full hit count. -/
theorem for_each_leaf_assert (ss : List (List String)) (T D M : ℕ) :
    (∀ x ∈ TreeNode.allNodes (Tree.ofSamples ss).root_node,
        x.children = [] → x.hits_total = x.hits_self) ∧
    (∀ x ∈ TreeNode.allNodes (Tree.sort (Tree.ofSamples ss)).root_node,
        x.children = [] → x.hits_total = x.hits_self) ∧
    (∀ x ∈ TreeNode.allNodes (Tree.rollup (Tree.sort (Tree.ofSamples ss)) T D M).root_node,
        x.children = [] → x.hits_total = x.hits_self) := by
  have h0 := ofSamples_spec ss
  have h1 : (Tree.sort (Tree.ofSamples ss)).root_node.invariant := sort_invariant _ h0.1
  have h2 := (rollup_tree_invariant (Tree.sort (Tree.ofSamples ss)) T D M h1).1
  refine ⟨fun x hx hl => leaf_eq_of_invariant (invariant_allNodes _ h0.1 x hx) hl,
    fun x hx hl => leaf_eq_of_invariant (invariant_allNodes _ h1 x hx) hl,
    fun x hx hl => leaf_eq_of_invariant (invariant_allNodes _ h2 x hx) hl⟩

/-- Witness for C10 at the single sample `["a"]`: the unique leaf has
`hits_total = hits_self = 1`. -/
theorem for_each_leaf_assert_witness :
    (TreeNode.mk "a" 1 1 []).hits_total = (TreeNode.mk "a" 1 1 []).hits_self :=
  (for_each_leaf_assert [["a"]] 0 0 0).1 (TreeNode.mk "a" 1 1 [])
    (by exact List.Mem.tail _ (List.Mem.head _)) rfl

/-- Claim C3 (amended): after `rollup(total, max_depth, min_percent)` on a
tree built by `add_frames`, every root child whose truncated percentage
meets `min_percent` has all its surviving strict descendants above the
threshold and within `max_depth`; the root's direct children themselves are
never collapsed (`Tree::rollup` discards the boolean returned for them), so
the claimed bound does not apply to them. -/
theorem rollup_surviving_bounds (ss : List (List String)) (T D M : ℕ) :
    ∀ c ∈ (Tree.rollup (Tree.ofSamples ss) T D M).root_node.children,
      M ≤ percent c.hits_total T → TreeNode.rollupBoundsOK c T D M 0 = true := by
  intro c hc hM
  rcases hroot : (Tree.ofSamples ss).root_node with ⟨l, tot, self, cs⟩
  rw [rollup_root_eq (Tree.ofSamples ss) T D M l tot self cs hroot, sort_children_eq] at hc
  have hc2 : c ∈ TreeNode.sortList (cs.map fun c => (TreeNode.rollup c 0 T D M).1) := by
    have hperm := List.perm_insertionSort (fun a b : TreeNode => b.hits_total ≤ a.hits_total)
      (TreeNode.sortList (cs.map fun c => (TreeNode.rollup c 0 T D M).1))
    exact hperm.mem_iff.mp (by simpa [TreeNode.children] using hc)
  rw [sortList_eq_map] at hc2
  obtain ⟨x, hx, hxc⟩ := List.mem_map.mp hc2
  obtain ⟨c0, hc0, hxc0⟩ := List.mem_map.mp hx
  subst hxc hxc0
  have htot : c0.hits_total = (TreeNode.sort ((TreeNode.rollup c0 0 T D M).1)).hits_total := by
    rw [sort_total, rollup_fst_total]
  have hok : (TreeNode.rollup c0 0 T D M).2 = true := by
    rw [rollup_snd_iff]
    exact ⟨by rw [htot]; exact hM, Nat.zero_le D⟩
  exact sort_boundsOK _ T D M 0 (rollup_boundsOK c0 0 T D M hok)

/-- Counterexample to claim C3 as stated: after one sample `["a"]` and
`rollup(total = 100, max_depth = 10, min_percent = 50)`, the root child `a`
survives although its truncated percentage `⌊100·1/100⌋ = 1` is far below
`min_percent = 50` — `Tree::rollup` never collapses the root's direct
children. -/
theorem rollup_surviving_bounds_cex :
    (Tree.rollup (Tree.ofSamples [["a"]]) 100 10 50).root_node.children =
      [TreeNode.mk "a" 1 1 []] ∧ 100 * 1 / 100 < 50 ∧ percent 1 100 < 50 :=
  ⟨rfl, by norm_num, by decide⟩

/-- Witness for the amended C3 with sample `["a"]`, `total = 1`,
`min_percent = 0`. -/
theorem rollup_surviving_bounds_witness :
    TreeNode.rollupBoundsOK (TreeNode.mk "a" 1 1 []) 1 10 0 0 = true :=
  rollup_surviving_bounds [["a"]] 1 10 0 (TreeNode.mk "a" 1 1 [])
    (by exact List.Mem.head _) (by decide)

/-! ## Call graph (src/graph/mod.rs) -/

/-- An entry of the inlined `frames` buffer: a node id or the reserved
`MARKER` sentinel.  In the source `MARKER = NodeId(usize::MAX)`; node ids are
allocated densely from 0 and can never reach the sentinel, so the sentinel is
modelled as a distinguished constructor. -/
inductive Fr where
  | node (id : ℕ)
  | marker
deriving DecidableEq, Repr

/-- The Rust `struct CallGraph` (src/graph/mod.rs 10-29).  The two hash maps are
association lists; their iteration order only affects `dump`, which is not
modelled. -/
structure CallGraph where
  nodes : List (String × ℕ)
  edges : List ((ℕ × ℕ) × ℕ)
  node_counts : List ℕ
  frames : List Fr
  total : ℕ
deriving DecidableEq, Repr

/-- The Rust `CallGraph::new` (src/graph/mod.rs 43-46). -/
def CallGraph.new : CallGraph := ⟨[], [], [], [], 0⟩

/-- The Rust `CallGraph::node_id` (src/graph/mod.rs 99-106): intern a name, allocating
the next dense index on first sight. -/
def CallGraph.node_id (g : CallGraph) (name : String) : ℕ × CallGraph :=
  match g.nodes.lookup name with
  | some i => (i, g)
  | none =>
    (g.node_counts.length,
     { g with nodes := g.nodes ++ [(name, g.node_counts.length)],
              node_counts := g.node_counts ++ [0] })

/-- The interning loop of `add_frames` (src/graph/mod.rs 139). -/
def CallGraph.internAll : CallGraph → List String → List ℕ × CallGraph
  | g, [] => ([], g)
  | g, f :: fs =>
    match g.node_id f with
    | (i, g1) =>
      match CallGraph.internAll g1 fs with
      | (ids, g2) => (i :: ids, g2)

/-- The Rust `Vec::dedup`: drop consecutive duplicates. -/
def dedupAdj {α : Type} [DecidableEq α] : List α → List α
  | [] => []
  | [x] => [x]
  | x :: y :: rest => if x = y then dedupAdj (y :: rest) else x :: dedupAdj (y :: rest)

/-- Increment the `node_counts` entry of each id
(src/graph/mod.rs 153-155).  Ids are always in range, so the out-of-range
no-op of `List.set` is never taken. -/
def bumpCounts (counts : List ℕ) (ids : List ℕ) : List ℕ :=
  ids.foldl (fun cs i => cs.set i (cs.getD i 0 + 1)) counts

/-- The Rust `impl AddFrames for CallGraph` (src/graph/mod.rs 135-157): intern, push
the ids and a trailing `MARKER` into the inlined buffer (empty samples are
ignored), then count each id once per sample (`sort` + `dedup`). -/
def CallGraph.add_frames (g : CallGraph) (frames : List String) : CallGraph :=
  match g.internAll frames with
  | (ids, g1) =>
    if ids.length = 0 then g1
    else
      { g1 with
        frames := g1.frames ++ ids.map Fr.node ++ [Fr.marker],
        node_counts :=
          bumpCounts g1.node_counts (dedupAdj (List.insertionSort (· ≤ ·) ids)) }

/-- The lexicographic order on `(percent, index)` pairs — the derived `Ord`
of the Rust tuple `(u32, NodeId)`. -/
def lexLe (a b : ℕ × ℕ) : Prop := a.1 < b.1 ∨ (a.1 = b.1 ∧ a.2 ≤ b.2)

instance : DecidableRel lexLe := fun a b => by unfold lexLe; infer_instance

instance : IsTotal (ℕ × ℕ) lexLe := ⟨by intro a b; unfold lexLe; omega⟩

instance : IsTrans (ℕ × ℕ) lexLe := ⟨by intro a b c; unfold lexLe; omega⟩

/-- The `(percent, NodeId)` list of `set_total` (src/graph/mod.rs 51-56). -/
def CallGraph.percents (g : CallGraph) (total : ℕ) : List (ℕ × ℕ) :=
  (g.node_counts.map (fun count => percent count total)).enum.map (fun ip => (ip.2, ip.1))

/-- The top-`threshold` node ids of `set_total` (src/graph/mod.rs 58-66):
sort the `(percent, index)` pairs ascending, walk them in reverse, take
`threshold` of them.  The source's stable `sort` and the insertion sort used
here agree because the keys are pairwise distinct (the indices differ). -/
def CallGraph.topNodeIds (g : CallGraph) (total threshold : ℕ) : List ℕ :=
  (((List.insertionSort lexLe (g.percents total)).reverse).take threshold).map
    (fun pi => pi.2)

/-- The pruned frames buffer (src/graph/mod.rs 68-70): keep markers and
retained ids. -/
def CallGraph.retainFrames (g : CallGraph) (total threshold : ℕ) : List Fr :=
  g.frames.filter (fun n =>
    match n with
    | Fr.marker => true
    | Fr.node i => decide (i ∈ g.topNodeIds total threshold))

/-- The Rust `*self.edges.entry(edge).or_insert(0) += 1` (src/graph/mod.rs 85). -/
def insertIncr : List ((ℕ × ℕ) × ℕ) → ℕ × ℕ → List ((ℕ × ℕ) × ℕ)
  | [], e => [(e, 1)]
  | (e0, c) :: rest, e =>
    if e0 = e then (e0, c + 1) :: rest else (e0, c) :: insertIncr rest e

/-- End-of-sample flush (src/graph/mod.rs 81-88): sort and deduplicate the
sample's edges, then count each once. -/
def flushEdges (pending : List (ℕ × ℕ)) (m : List ((ℕ × ℕ) × ℕ)) :
    List ((ℕ × ℕ) × ℕ) :=
  (dedupAdj (List.insertionSort lexLe pending)).foldl insertIncr m

/-- The edge-construction loop of `set_total` (src/graph/mod.rs 72-96),
walking the pruned buffer with one-frame lookahead.  A non-marker final
entry would make the source index out of bounds and panic; that case is
unreachable because the buffer always ends with a marker, and the model
returns the map unchanged there. -/
def collectEdges : List Fr → List (ℕ × ℕ) → List ((ℕ × ℕ) × ℕ) → List ((ℕ × ℕ) × ℕ)
  | [], _, m => m
  | Fr.marker :: rest, pending, m => collectEdges rest [] (flushEdges pending m)
  | Fr.node i :: rest, pending, m =>
    match rest with
    | [] => m
    | y :: _ =>
      collectEdges rest
        (match y with
         | Fr.node j => pending ++ [(i, j)]
         | Fr.marker => pending) m

/-- The Rust `CallGraph::set_total` (src/graph/mod.rs 48-97). -/
def CallGraph.set_total (g : CallGraph) (total threshold : ℕ) : CallGraph :=
  { g with
    total := total,
    frames := g.retainFrames total threshold,
    edges := collectEdges (g.retainFrames total threshold) [] g.edges }

/-- A call graph built from an empty graph by one `add_frames` call per
sample, as the driver does. -/
def CallGraph.ofSamples (ss : List (List String)) : CallGraph :=
  ss.foldl CallGraph.add_frames CallGraph.new

/-- Two adjacent `MARKER` sentinels somewhere in a buffer. -/
def hasAdjacentMarkers : List Fr → Bool
  | x :: y :: rest =>
    (decide (x = Fr.marker) && decide (y = Fr.marker)) || hasAdjacentMarkers (y :: rest)
  | _ => false

/-- The `(percent, index)` key of node `i`, as `set_total` ranks nodes. -/
def CallGraph.keyOf (g : CallGraph) (total i : ℕ) : ℕ × ℕ :=
  (percent (g.node_counts.getD i 0) total, i)

/-! ### Lemmas about the call graph -/

theorem node_id_frames (g : CallGraph) (f : String) :
    ((g.node_id f).2).frames = g.frames ∧ ((g.node_id f).2).edges = g.edges := by
  unfold CallGraph.node_id
  cases g.nodes.lookup f <;> exact ⟨rfl, rfl⟩

theorem internAll_frames : ∀ (fs : List String) (g : CallGraph),
    ((g.internAll fs).2).frames = g.frames ∧ ((g.internAll fs).2).edges = g.edges := by
  intro fs
  induction fs with
  | nil => intro g; exact ⟨rfl, rfl⟩
  | cons f fs ih =>
    intro g
    rcases hn : g.node_id f with ⟨i, g1⟩
    rcases hr : g1.internAll fs with ⟨ids, g2⟩
    have h1 := node_id_frames g f
    rw [hn] at h1
    have h2 := ih g1
    rw [hr] at h2
    simp at h1 h2
    have hred : g.internAll (f :: fs) = (i :: ids, g2) := by
      unfold CallGraph.internAll
      simp only [hn, hr]
    rw [hred]
    exact ⟨by simp [h2.1, h1.1], by simp [h2.2, h1.2]⟩

/-- The relation "not two markers in a row" between consecutive entries. -/
def notMM (a b : Fr) : Prop := ¬(a = Fr.marker ∧ b = Fr.marker)

theorem hasAdj_false_iff : ∀ (l : List Fr),
    hasAdjacentMarkers l = false ↔ List.Chain' notMM l := by
  intro l
  induction l with
  | nil => simp [hasAdjacentMarkers]
  | cons x rest ih =>
    cases rest with
    | nil => simp [hasAdjacentMarkers]
    | cons y rest2 =>
      rw [List.chain'_cons, ← ih]
      simp [hasAdjacentMarkers, notMM]

theorem chain_nodes_marker : ∀ (ids : List ℕ),
    List.Chain' notMM (ids.map Fr.node ++ [Fr.marker]) := by
  intro ids
  induction ids with
  | nil => simp
  | cons i ids ih =>
    rw [List.map_cons, List.cons_append, List.chain'_cons']
    refine ⟨?_, ih⟩
    intro y _
    simp [notMM]

/-- Well-formedness of the inlined buffer: no two adjacent markers, and the
buffer is empty or ends with a marker. -/
def framesWF (l : List Fr) : Prop :=
  hasAdjacentMarkers l = false ∧ (l = [] ∨ l.getLast? = some Fr.marker)

theorem add_frames_framesWF (g : CallGraph) (fs : List String) (h : framesWF g.frames) :
    framesWF (g.add_frames fs).frames := by
  unfold CallGraph.add_frames
  rcases hi : g.internAll fs with ⟨ids, g1⟩
  have hfr : g1.frames = g.frames := by
    have := (internAll_frames fs g).1
    rw [hi] at this
    exact this
  by_cases hl : ids.length = 0
  · simpa [hl, hfr] using h
  · simp only [hl, if_false]
    constructor
    · rw [hasAdj_false_iff]
      have hassoc : g1.frames ++ ids.map Fr.node ++ [Fr.marker] =
          g1.frames ++ (ids.map Fr.node ++ [Fr.marker]) := by
        rw [List.append_assoc]
      rw [hassoc, List.chain'_append]
      refine ⟨by rw [hfr]; exact (hasAdj_false_iff _).mp h.1, chain_nodes_marker ids, ?_⟩
      intro x hx y hy
      cases ids with
      | nil => exact absurd rfl hl
      | cons i ids2 =>
        simp at hy
        subst hy
        simp [notMM]
    · right
      exact List.getLast?_concat _

/-- Claim C5 (amended): after any sequence of `add_frames` calls the frames
buffer never contains two adjacent `MARKER` sentinels.  (After `set_total`'s
pruning this can fail, see the counterexample.) -/
theorem graph_no_adjacent_markers (ss : List (List String)) :
    hasAdjacentMarkers (CallGraph.ofSamples ss).frames = false := by
  suffices h : ∀ (l : List (List String)) (g : CallGraph), framesWF g.frames →
      framesWF ((l.foldl CallGraph.add_frames g).frames) by
    exact (h ss CallGraph.new ⟨rfl, Or.inl rfl⟩).1
  intro l
  induction l with
  | nil => intro g hg; exact hg
  | cons s l ih =>
    intro g hg
    exact ih (g.add_frames s) (add_frames_framesWF g s hg)

/-- Counterexample to claim C5 as stated: `set_total` prunes every node of
the middle sample, leaving its marker adjacent to the previous one. -/
theorem set_total_adjacent_markers_cex :
    (CallGraph.set_total (CallGraph.ofSamples [["a"], ["b"], ["c"]]) 3 1).frames =
      [Fr.marker, Fr.marker, Fr.node 2, Fr.marker] ∧
    hasAdjacentMarkers
      (CallGraph.set_total (CallGraph.ofSamples [["a"], ["b"], ["c"]]) 3 1).frames = true := by
  decide

theorem percents_length (g : CallGraph) (total : ℕ) :
    (g.percents total).length = g.node_counts.length := by
  simp [CallGraph.percents, List.enum_length]

theorem percents_map_snd (g : CallGraph) (total : ℕ) :
    (g.percents total).map Prod.snd = List.range g.node_counts.length := by
  unfold CallGraph.percents
  rw [List.map_map]
  have h : (Prod.snd ∘ fun ip : ℕ × ℕ => (ip.2, ip.1)) = Prod.fst := by
    funext ip
    rfl
  rw [h, List.enum_map_fst, List.length_map]

theorem mem_percents_iff (g : CallGraph) (total : ℕ) (p : ℕ × ℕ) :
    p ∈ g.percents total ↔ p.2 < g.node_counts.length ∧ p = g.keyOf total p.2 := by
  unfold CallGraph.percents CallGraph.keyOf
  constructor
  · intro hp
    obtain ⟨ip, hip, hswap⟩ := List.mem_map.mp hp
    have hget := List.mem_enum_iff_getElem?.mp hip
    rw [List.getElem?_map] at hget
    rcases hv : g.node_counts[ip.1]? with _ | v
    · rw [hv] at hget
      simp at hget
    · rw [hv] at hget
      simp at hget
      obtain ⟨hlt, hval⟩ := List.getElem?_eq_some.mp hv
      have hgd : g.node_counts.getD ip.1 0 = v := by
        rw [List.getD_eq_getElem?_getD, hv]
        rfl
      subst hswap
      exact ⟨hlt, by rw [hgd, hget]⟩
  · rintro ⟨hlt, hkey⟩
    apply List.mem_map.mpr
    refine ⟨(p.2, percent (g.node_counts.getD p.2 0) total), ?_, ?_⟩
    · apply List.mem_enum_iff_getElem?.mpr
      rw [List.getElem?_map]
      have hv : g.node_counts[p.2]? = some (g.node_counts.getD p.2 0) := by
        rw [List.getElem?_eq_getElem hlt]
        rw [List.getD_eq_getElem?_getD, List.getElem?_eq_getElem hlt]
        rfl
      rw [hv]
      rfl
    · rw [hkey]

theorem mem_dedupAdj {α : Type} [DecidableEq α] :
    ∀ (l : List α) (x : α), x ∈ dedupAdj l → x ∈ l := by
  intro l
  induction l with
  | nil => intro x hx; exact absurd hx (by simp [dedupAdj])
  | cons a rest ih =>
    intro x hx
    cases rest with
    | nil => simpa [dedupAdj] using hx
    | cons b rest2 =>
      unfold dedupAdj at hx
      split_ifs at hx with hab
      · exact List.mem_cons_of_mem _ (ih x hx)
      · rcases List.mem_cons.mp hx with h | h
        · exact h ▸ List.mem_cons_self _ _
        · exact List.mem_cons_of_mem _ (ih x h)

theorem insertIncr_pred (Q : ℕ × ℕ → Prop) :
    ∀ (m : List ((ℕ × ℕ) × ℕ)) (e : ℕ × ℕ), (∀ em ∈ m, Q em.1) → Q e →
      ∀ em ∈ insertIncr m e, Q em.1 := by
  intro m
  induction m with
  | nil =>
    intro e _ hQ em hem
    simp [insertIncr] at hem
    rw [hem]
    exact hQ
  | cons hd rest ih =>
    intro e hm hQ em hem
    rcases hd with ⟨e0, c⟩
    unfold insertIncr at hem
    split_ifs at hem with he
    · rcases List.mem_cons.mp hem with h | h
      · rw [h]
        exact hm (e0, c) (List.mem_cons_self _ _)
      · exact hm em (List.mem_cons_of_mem _ h)
    · rcases List.mem_cons.mp hem with h | h
      · rw [h]
        exact hm (e0, c) (List.mem_cons_self _ _)
      · exact ih e (fun x hx => hm x (List.mem_cons_of_mem _ hx)) hQ em h

theorem foldl_insertIncr_pred (Q : ℕ × ℕ → Prop) :
    ∀ (es : List (ℕ × ℕ)) (m : List ((ℕ × ℕ) × ℕ)),
      (∀ em ∈ m, Q em.1) → (∀ e ∈ es, Q e) →
      ∀ em ∈ es.foldl insertIncr m, Q em.1 := by
  intro es
  induction es with
  | nil => intro m hm _ em hem; exact hm em hem
  | cons e es ih =>
    intro m hm hes em hem
    rw [List.foldl_cons] at hem
    exact ih (insertIncr m e)
      (insertIncr_pred Q m e hm (hes e (List.mem_cons_self _ _)))
      (fun x hx => hes x (List.mem_cons_of_mem _ hx)) em hem

theorem flushEdges_pred (Q : ℕ × ℕ → Prop) (pending : List (ℕ × ℕ))
    (m : List ((ℕ × ℕ) × ℕ)) (hp : ∀ e ∈ pending, Q e) (hm : ∀ em ∈ m, Q em.1) :
    ∀ em ∈ flushEdges pending m, Q em.1 := by
  apply foldl_insertIncr_pred Q _ m hm
  intro e he
  have h1 := mem_dedupAdj _ e he
  have h2 := (List.perm_insertionSort lexLe pending).mem_iff.mp h1
  exact hp e h2

theorem collectEdges_pred (P : ℕ → Prop) :
    ∀ (l : List Fr) (pending : List (ℕ × ℕ)) (m : List ((ℕ × ℕ) × ℕ)),
      (∀ e ∈ pending, P e.1 ∧ P e.2) → (∀ em ∈ m, P em.1.1 ∧ P em.1.2) →
      (∀ i, Fr.node i ∈ l → P i) →
      ∀ em ∈ collectEdges l pending m, P em.1.1 ∧ P em.1.2 := by
  intro l
  induction l with
  | nil => intro pending m _ hm _ em hem; exact hm em hem
  | cons x rest ih =>
    intro pending m hp hm hl em hem
    cases x with
    | marker =>
      rw [show collectEdges (Fr.marker :: rest) pending m =
          collectEdges rest [] (flushEdges pending m) from rfl] at hem
      exact ih [] (flushEdges pending m) (by simp)
        (flushEdges_pred _ pending m hp hm)
        (fun i hi => hl i (List.mem_cons_of_mem _ hi)) em hem
    | node i =>
      cases rest with
      | nil =>
        rw [show collectEdges [Fr.node i] pending m = m from rfl] at hem
        exact hm em hem
      | cons y rest2 =>
        cases y with
        | marker =>
          rw [show collectEdges (Fr.node i :: Fr.marker :: rest2) pending m =
              collectEdges (Fr.marker :: rest2) pending m from rfl] at hem
          exact ih pending m hp hm
            (fun i2 hi2 => hl i2 (List.mem_cons_of_mem _ hi2)) em hem
        | node j =>
          rw [show collectEdges (Fr.node i :: Fr.node j :: rest2) pending m =
              collectEdges (Fr.node j :: rest2) (pending ++ [(i, j)]) m from rfl] at hem
          refine ih _ m ?_ hm (fun i2 hi2 => hl i2 (List.mem_cons_of_mem _ hi2)) em hem
          intro e he
          rcases List.mem_append.mp he with h | h
          · exact hp e h
          · have he2 : e = (i, j) := by simpa using h
            rw [he2]
            exact ⟨hl i (List.mem_cons_self _ _),
              hl j (List.mem_cons_of_mem _ (List.mem_cons_self _ _))⟩

theorem retainFrames_nodes (g : CallGraph) (total threshold : ℕ) :
    ∀ i, Fr.node i ∈ g.retainFrames total threshold →
      i ∈ g.topNodeIds total threshold := by
  intro i hi
  have := List.mem_filter.mp hi
  simpa using this.2

theorem add_frames_edges (g : CallGraph) (fs : List String) :
    (g.add_frames fs).edges = g.edges := by
  rcases hi : g.internAll fs with ⟨ids, g1⟩
  have hfr : g1.edges = g.edges := by
    have := (internAll_frames fs g).2
    rw [hi] at this
    exact this
  unfold CallGraph.add_frames
  simp only [hi]
  split_ifs with hl
  · exact hfr
  · exact hfr

theorem ofSamples_edges_nil (ss : List (List String)) :
    (CallGraph.ofSamples ss).edges = [] := by
  suffices h : ∀ (l : List (List String)) (g : CallGraph), g.edges = [] →
      (l.foldl CallGraph.add_frames g).edges = [] from h ss CallGraph.new rfl
  intro l
  induction l with
  | nil => intro g hg; exact hg
  | cons s l ih =>
    intro g hg
    exact ih (g.add_frames s) (by rw [add_frames_edges]; exact hg)

theorem topNodeIds_spec (g : CallGraph) (total threshold : ℕ) :
    (g.topNodeIds total threshold).length = min threshold g.node_counts.length ∧
    (g.topNodeIds total threshold).Nodup ∧
    (∀ i ∈ g.topNodeIds total threshold, i < g.node_counts.length) ∧
    (∀ i ∈ g.topNodeIds total threshold, ∀ j < g.node_counts.length,
      j ∉ g.topNodeIds total threshold →
        lexLe (g.keyOf total j) (g.keyOf total i) ∧
          g.keyOf total j ≠ g.keyOf total i) := by
  have hperm : (List.insertionSort lexLe (g.percents total)).Perm (g.percents total) :=
    List.perm_insertionSort _ _
  have hsort : List.Sorted lexLe (List.insertionSort lexLe (g.percents total)) :=
    List.sorted_insertionSort _ _
  have hlen : (List.insertionSort lexLe (g.percents total)).length = g.node_counts.length := by
    rw [hperm.length_eq, percents_length]
  have hsndnodup : ((List.insertionSort lexLe (g.percents total)).reverse.map Prod.snd).Nodup := by
    rw [List.map_reverse, List.nodup_reverse]
    have := (hperm.map Prod.snd).nodup_iff
    rw [this, percents_map_snd]
    exact List.nodup_range _
  refine ⟨?_, ?_, ?_, ?_⟩
  · simp [CallGraph.topNodeIds, hlen]
  · unfold CallGraph.topNodeIds
    rw [List.map_take]
    exact (List.take_sublist _ _).nodup hsndnodup
  · intro i hi
    obtain ⟨p, hp, hpi⟩ := List.mem_map.mp hi
    have hp2 : p ∈ (List.insertionSort lexLe (g.percents total)).reverse :=
      List.mem_of_mem_take hp
    have hp3 : p ∈ g.percents total :=
      hperm.mem_iff.mp (List.mem_reverse.mp hp2)
    have := (mem_percents_iff g total p).mp hp3
    rw [← hpi]
    exact this.1
  · intro i hi j hj hjout
    obtain ⟨px, hpx, hpxi⟩ := List.mem_map.mp hi
    have hpxS : px ∈ g.percents total :=
      hperm.mem_iff.mp (List.mem_reverse.mp (List.mem_of_mem_take hpx))
    have hpxkey := (mem_percents_iff g total px).mp hpxS
    have hpxval : px = g.keyOf total i := by
      rw [hpxkey.2, hpxi]
    have hpj : g.keyOf total j ∈ g.percents total := by
      apply (mem_percents_iff g total _).mpr
      exact ⟨by simpa [CallGraph.keyOf] using hj, by simp [CallGraph.keyOf]⟩
    have hpjrev : g.keyOf total j ∈ (List.insertionSort lexLe (g.percents total)).reverse :=
      List.mem_reverse.mpr (hperm.mem_iff.mpr hpj)
    have hsplit := List.take_append_drop threshold
      (List.insertionSort lexLe (g.percents total)).reverse
    have hpair : List.Pairwise (fun a b => lexLe b a)
        (List.insertionSort lexLe (g.percents total)).reverse :=
      List.pairwise_reverse.mpr hsort
    have hpair2 := hpair
    rw [← hsplit] at hpair2
    have hcross := (List.pairwise_append.mp hpair2).2.2
    have hjmem : g.keyOf total j ∈
        List.take threshold (List.insertionSort lexLe (g.percents total)).reverse ++
        List.drop threshold (List.insertionSort lexLe (g.percents total)).reverse := by
      rw [hsplit]
      exact hpjrev
    have hne : g.keyOf total j ≠ g.keyOf total i := by
      intro hcontra
      have : j = i := congrArg Prod.snd hcontra
      subst this
      exact hjout hi
    rcases List.mem_append.mp hjmem with h | h
    · exfalso
      apply hjout
      apply List.mem_map.mpr
      exact ⟨g.keyOf total j, h, rfl⟩
    · refine ⟨?_, hne⟩
      have := hcross px hpx (g.keyOf total j) h
      rw [hpxval] at this
      exact this

theorem set_total_edges_retained (g : CallGraph) (total threshold : ℕ)
    (h : g.edges = []) :
    ∀ em ∈ (g.set_total total threshold).edges,
      em.1.1 ∈ g.topNodeIds total threshold ∧ em.1.2 ∈ g.topNodeIds total threshold := by
  intro em hem
  unfold CallGraph.set_total at hem
  simp only at hem
  apply collectEdges_pred (fun i => i ∈ g.topNodeIds total threshold)
    (g.retainFrames total threshold) [] g.edges (by simp)
    (by rw [h]; simp) (retainFrames_nodes g total threshold) em hem

/-- Claim C4 (amended): after `set_total(total, top_n)` the retained node set
is the top `top_n` by the key `(truncated percentage, index)` — not by raw
`node_count`: it has size `min top_n #nodes`, is duplicate-free, contains
only valid indices, and the key of every retained node strictly exceeds the
key of every non-retained node; and both endpoints of every recorded edge
are retained. -/
theorem set_total_top_spec (ss : List (List String)) (total threshold : ℕ) :
    (CallGraph.topNodeIds (CallGraph.ofSamples ss) total threshold).length =
      min threshold (CallGraph.ofSamples ss).node_counts.length ∧
    (CallGraph.topNodeIds (CallGraph.ofSamples ss) total threshold).Nodup ∧
    (∀ i ∈ CallGraph.topNodeIds (CallGraph.ofSamples ss) total threshold,
      i < (CallGraph.ofSamples ss).node_counts.length) ∧
    (∀ i ∈ CallGraph.topNodeIds (CallGraph.ofSamples ss) total threshold,
      ∀ j < (CallGraph.ofSamples ss).node_counts.length,
        j ∉ CallGraph.topNodeIds (CallGraph.ofSamples ss) total threshold →
          lexLe ((CallGraph.ofSamples ss).keyOf total j)
              ((CallGraph.ofSamples ss).keyOf total i) ∧
            (CallGraph.ofSamples ss).keyOf total j ≠
              (CallGraph.ofSamples ss).keyOf total i) ∧
    (∀ em ∈ (CallGraph.set_total (CallGraph.ofSamples ss) total threshold).edges,
      em.1.1 ∈ CallGraph.topNodeIds (CallGraph.ofSamples ss) total threshold ∧
      em.1.2 ∈ CallGraph.topNodeIds (CallGraph.ofSamples ss) total threshold) := by
  obtain ⟨h1, h2, h3, h4⟩ := topNodeIds_spec (CallGraph.ofSamples ss) total threshold
  exact ⟨h1, h2, h3, h4,
    set_total_edges_retained _ total threshold (ofSamples_edges_nil ss)⟩

/-- Counterexample to claim C4 as stated: with counts `a ↦ 2, b ↦ 1` and
`total = 300` both nodes have truncated percentage 0, so the tie is broken
by the larger index and `set_total(300, 1)` retains node `b` (count 1), not
the top-count node `a` (count 2). -/
theorem set_total_top_by_count_cex :
    (CallGraph.ofSamples [["a"], ["a"], ["b"]]).node_counts = [2, 1] ∧
    CallGraph.topNodeIds (CallGraph.ofSamples [["a"], ["a"], ["b"]]) 300 1 = [1] ∧
    (CallGraph.set_total (CallGraph.ofSamples [["a"], ["a"], ["b"]]) 300 1).frames =
      [Fr.marker, Fr.marker, Fr.node 1, Fr.marker] := by
  decide

/-- Witness for the amended C4: in the tie situation above, the retained
node 1 strictly dominates the pruned node 0 in the `(percent, index)`
order. -/
theorem set_total_top_spec_witness :
    lexLe ((CallGraph.ofSamples [["a"], ["a"], ["b"]]).keyOf 300 0)
        ((CallGraph.ofSamples [["a"], ["a"], ["b"]]).keyOf 300 1) ∧
      (CallGraph.ofSamples [["a"], ["a"], ["b"]]).keyOf 300 0 ≠
        (CallGraph.ofSamples [["a"], ["a"], ["b"]]).keyOf 300 1 :=
  (set_total_top_spec [["a"], ["a"], ["b"]] 300 1).2.2.2.1 1 (by decide) 0 (by decide)
    (by decide)

end PerfFocus
